import Mathlib

/-!
Verification of the Campus Cart order interpretation and aggregation engine
(`Code.js`): a shallow embedding of the field selector (`determineOrderField`),
the dual-grammar order text analysis (`parseOrderItemsEnhanced`), the delivery
fee classifier (`calculateDeliveryFee`), the order builder (`onFormSubmit`
lines 21-53) and the daily aggregator (`sendDailySummary` lines 858-902,
`generateDispatchText` line 975), together with theorems settling the frozen
claims about them.

Strings are modelled as Lean `String`/`List Char`; JavaScript numbers holding
money amounts are modelled as exact rationals; row timestamps as naturals.
The two regular expressions in `parseOrderItemsEnhanced` are modelled by
hand-rolled scanners that reproduce the JS engine behaviour: leftmost match,
lazy `[\w\s]+?` group, greedy runs, the negative lookahead `(?!\s*@)` with
its one-digit backtracking, and `matchAll` resuming at each match end.
-/

namespace CampusCart

/-! ### Character classes (JS `\w`, `\s`, `\d`, trim set) -/

/-- JS `\s` (also the `String.prototype.trim` set): ASCII whitespace plus the
Unicode space separators, line separators and BOM. -/
def isJsSpace (c : Char) : Bool :=
  c.toNat = 32 || c.toNat = 9 || c.toNat = 10 || c.toNat = 11 || c.toNat = 12 ||
  c.toNat = 13 || c.toNat = 160 || c.toNat = 5760 ||
  (8192 ≤ c.toNat && c.toNat ≤ 8202) || c.toNat = 8232 || c.toNat = 8233 ||
  c.toNat = 8239 || c.toNat = 8287 || c.toNat = 12288 || c.toNat = 65279

/-- JS `\d`: the ASCII digits. -/
def isAsciiDigit (c : Char) : Bool :=
  48 ≤ c.toNat && c.toNat ≤ 57

/-- The ASCII letters. -/
def isAsciiLetter (c : Char) : Bool :=
  (65 ≤ c.toNat && c.toNat ≤ 90) || (97 ≤ c.toNat && c.toNat ≤ 122)

/-- JS `\w`: `[A-Za-z0-9_]` (the `i` flag does not change this class). -/
def isWordCh (c : Char) : Bool :=
  isAsciiLetter c || isAsciiDigit c || c.toNat = 95

/-- JS `[\w\s]`. -/
def isWordSpaceCh (c : Char) : Bool :=
  isWordCh c || isJsSpace c

/-- `String.prototype.trim` on a character list: drop JS whitespace from both
ends. -/
def trimJs (l : List Char) : List Char :=
  ((l.dropWhile isJsSpace).reverse.dropWhile isJsSpace).reverse

/-- Numeric value of a digit string; models `parseInt` on a `\d+` match. -/
def digitsVal (l : List Char) : ℕ :=
  l.foldl (fun a c => a * 10 + (c.toNat - 48)) 0

/-- Value of `parseFloat` on a price match `\d+(?:\.\d{2})?`, as an exact
rational. -/
def priceVal (ip : List Char) (fr : Option (Char × Char)) : ℚ :=
  (digitsVal ip : ℚ) +
    (match fr with
     | none => 0
     | some (a, b) => (digitsVal [a, b] : ℚ) / 100)

/-- The characters contributed by the optional `.\d{2}` fraction part. -/
def fracChars : Option (Char × Char) → List Char
  | none => []
  | some (a, b) => ['.', a, b]

/-! ### The itemized pattern `([\w\s]+?)\s+(\d+)\s*@\s*(\d+(?:\.\d{2})?)` -/

/-- Result of matching the itemized pattern after the name group: quantity
digits, integer price digits, optional two fraction digits, and the unmatched
remainder of the input. -/
structure ItemizedTail where
  qtyDigits : List Char
  intDigits : List Char
  fracDigits : Option (Char × Char)
  rest : List Char
deriving DecidableEq

/-- Match `\s+(\d+)\s*@\s*(\d+(?:\.\d{2})?)` at the start of `l`.  The greedy
runs never need to backtrack here: giving back a whitespace or digit character
cannot make the following literal match. -/
def restItemized (l : List Char) : Option ItemizedTail :=
  if (l.takeWhile isJsSpace).isEmpty then none
  else
    let l1 := l.dropWhile isJsSpace
    let ds := l1.takeWhile isAsciiDigit
    let l2 := l1.dropWhile isAsciiDigit
    if ds.isEmpty then none
    else
      match l2.dropWhile isJsSpace with
      | '@' :: l4 =>
        let l5 := l4.dropWhile isJsSpace
        let ps := l5.takeWhile isAsciiDigit
        let l6 := l5.dropWhile isAsciiDigit
        if ps.isEmpty then none
        else
          match l6 with
          | '.' :: a :: b :: l7 =>
            if isAsciiDigit a && isAsciiDigit b then some ⟨ds, ps, some (a, b), l7⟩
            else some ⟨ds, ps, none, l6⟩
          | _ => some ⟨ds, ps, none, l6⟩
      | _ => none

/-- Attempt the itemized pattern at a fixed start position: the lazy name
group `([\w\s]+?)` takes the shortest extension (accumulated in `acc`) after
which `restItemized` succeeds. -/
def findItemized (acc : List Char) (l : List Char) : Option (List Char × ItemizedTail) :=
  match l with
  | [] => none
  | c :: t =>
    if isWordSpaceCh c then
      match restItemized t with
      | some tl => some (acc ++ [c], tl)
      | none => findItemized (acc ++ [c]) t
    else none

/-- One raw match of the itemized pattern: the raw (untrimmed) name group and
the numeric groups. -/
structure RawItemized where
  nameRaw : List Char
  qtyDigits : List Char
  intDigits : List Char
  fracDigits : Option (Char × Char)
deriving DecidableEq

/-- `matchAll` for the itemized pattern, fuelled: try every start position
from the left; after a match, resume at its end.  Every step consumes at
least one character, so fuel `l.length` is always sufficient. -/
def scanItemizedFuel : ℕ → List Char → List RawItemized
  | 0, _ => []
  | _ + 1, [] => []
  | f + 1, c :: t =>
    match findItemized [] (c :: t) with
    | some (nm, tl) => ⟨nm, tl.qtyDigits, tl.intDigits, tl.fracDigits⟩ :: scanItemizedFuel f tl.rest
    | none => scanItemizedFuel f t

/-- All matches of the itemized pattern over `l`. -/
def scanItemized (l : List Char) : List RawItemized :=
  scanItemizedFuel l.length l

/-! ### The prepaid pattern `([\w\s]+?)\s+(\d+)(?!\s*@)` -/

/-- Whether `\s*@` matches at the start of `l` (the body of the negative
lookahead). -/
def wsAtFollows (l : List Char) : Bool :=
  match l.dropWhile isJsSpace with
  | '@' :: _ => true
  | _ => false

/-- One raw match of the prepaid pattern. -/
structure RawPrepaid where
  nameRaw : List Char
  qtyDigits : List Char
deriving DecidableEq

/-- Tail data of a prepaid match: quantity digits and the unmatched rest. -/
structure PrepaidTail where
  qtyDigits : List Char
  rest : List Char
deriving DecidableEq

/-- Match `\s+(\d+)(?!\s*@)` at the start of `l`.  The greedy `\d+` first
takes the whole digit run; if the lookahead then fails it gives back exactly
one digit, after which the lookahead necessarily succeeds (the next character
is a digit).  A single digit followed by `\s*@` admits no match. -/
def restPrepaid (l : List Char) : Option PrepaidTail :=
  if (l.takeWhile isJsSpace).isEmpty then none
  else
    let l1 := l.dropWhile isJsSpace
    let ds := l1.takeWhile isAsciiDigit
    let l2 := l1.dropWhile isAsciiDigit
    if ds.isEmpty then none
    else if !wsAtFollows l2 then some ⟨ds, l2⟩
    else if 2 ≤ ds.length then some ⟨ds.take (ds.length - 1), ds.drop (ds.length - 1) ++ l2⟩
    else none

/-- Attempt the prepaid pattern at a fixed start position (lazy name group,
as in `findItemized`). -/
def findPrepaid (acc : List Char) (l : List Char) : Option (List Char × PrepaidTail) :=
  match l with
  | [] => none
  | c :: t =>
    if isWordSpaceCh c then
      match restPrepaid t with
      | some tl => some (acc ++ [c], tl)
      | none => findPrepaid (acc ++ [c]) t
    else none

/-- `matchAll` for the prepaid pattern, fuelled (fuel `l.length` suffices). -/
def scanPrepaidFuel : ℕ → List Char → List RawPrepaid
  | 0, _ => []
  | _ + 1, [] => []
  | f + 1, c :: t =>
    match findPrepaid [] (c :: t) with
    | some (nm, tl) => ⟨nm, tl.qtyDigits⟩ :: scanPrepaidFuel f tl.rest
    | none => scanPrepaidFuel f t

/-- All matches of the prepaid pattern over `l`. -/
def scanPrepaid (l : List Char) : List RawPrepaid :=
  scanPrepaidFuel l.length l

/-! ### The order text analysis (`parseOrderItemsEnhanced`) -/

/-- A parsed line item, as built by `parseOrderItemsEnhanced`. -/
structure Item where
  name : String
  quantity : ℕ
  price : ℚ
deriving DecidableEq

/-- The detected order format (`type` field of a successful result). -/
inductive OrderFormat where
  | itemized
  | prepaid
deriving DecidableEq

/-- The `error` field of a failed result. -/
inductive ParseErr where
  | empty_order
  | invalid_itemized_format
  | invalid_prepaid_format
  | unrecognizable_format
deriving DecidableEq

/-- Result of `parseOrderItemsEnhanced`: `{success: true, items, type}` or
`{success: false, error}`. -/
inductive ParseResult where
  | success (items : List Item) (format : OrderFormat)
  | failure (error : ParseErr)
deriving DecidableEq

/-- Validity check applied to itemized items:
`item.name && item.quantity > 0 && item.price >= 0`. -/
def validItemized (it : Item) : Bool :=
  decide (it.name ≠ "") && decide (0 < it.quantity) && decide (0 ≤ it.price)

/-- Validity check applied to prepaid items: `item.name && item.quantity > 0`. -/
def validPrepaid (it : Item) : Bool :=
  decide (it.name ≠ "") && decide (0 < it.quantity)

/-- `parseOrderItemsEnhanced(text)`.  `none` models a non-string argument
(`null`/`undefined`); the empty string is falsy, so both short-circuit to
`empty_order` before the text is trimmed.  Itemized is attempted first; a
match set in which every item is valid wins; otherwise prepaid is attempted;
otherwise the failure is classified from the trimmed text (which contains
`@`, respectively a digit, exactly when the raw text does). -/
def parseOrderItemsEnhanced (text : Option String) : ParseResult :=
  match text with
  | none => .failure .empty_order
  | some s =>
    if s = "" then .failure .empty_order
    else
      let cleanText := trimJs s.toList
      let itemizedMatches := scanItemized cleanText
      let itItems := itemizedMatches.map fun m =>
        ({ name := ⟨trimJs m.nameRaw⟩, quantity := digitsVal m.qtyDigits,
           price := priceVal m.intDigits m.fracDigits } : Item)
      let itValid := itItems.filter validItemized
      if 0 < itemizedMatches.length ∧ itValid.length = itItems.length then
        .success itValid .itemized
      else
        let prepaidMatches := scanPrepaid cleanText
        let ppItems := prepaidMatches.map fun m =>
          ({ name := ⟨trimJs m.nameRaw⟩, quantity := digitsVal m.qtyDigits,
             price := 0 } : Item)
        let ppValid := ppItems.filter validPrepaid
        if 0 < prepaidMatches.length ∧ ppValid.length = ppItems.length then
          .success ppValid .prepaid
        else if cleanText.contains '@' then .failure .invalid_itemized_format
        else if cleanText.any isAsciiDigit then .failure .invalid_prepaid_format
        else .failure .unrecognizable_format

/-! ### The field selector (`determineOrderField`) -/

/-- Lowercasing a string character by character (ASCII, which covers every
string the system compares). -/
def lowerStr (s : String) : String :=
  ⟨s.toList.map Char.toLower⟩

/-- `needle.isPrefixOf`-based substring containment on character lists,
modelling `String.prototype.includes`. -/
def listIncl (hay needle : List Char) : Bool :=
  match hay with
  | [] => needle.isEmpty
  | _ :: t => needle.isPrefixOf hay || listIncl t needle

/-- `hay.includes(needle)`. -/
def strIncludes (hay needle : String) : Bool :=
  listIncl hay.toList needle.toList

/-- Which of the two order fields a raw order text came from (`orderSource`);
the call sites compute it as `rawOrder === orderField1 ? 'field1' : 'field2'`. -/
inductive OrderSource where
  | field1
  | field2
deriving DecidableEq

/-- `rawOrder === orderField1 ? 'field1' : 'field2'`. -/
def orderSourceOf (rawOrder field1 : String) : OrderSource :=
  if rawOrder = field1 then .field1 else .field2

/-- `determineOrderField(field1, field2, selectedType)`.  Field emptiness is
JS falsiness of the string.  Both empty gives `null`; a sole populated field
wins; with both populated, a `selectedType` mentioning pickup or delivery
prefers field 2, one mentioning order prefers field 1, and otherwise the
strictly longer field wins with ties going to field 2.  The final
`return field1 || field2` of the source is unreachable but transcribed. -/
def determineOrderField (field1 field2 selectedType : String) : Option String :=
  if field1 = "" ∧ field2 = "" then none
  else if field1 ≠ "" ∧ field2 = "" then some field1
  else if field2 ≠ "" ∧ field1 = "" then some field2
  else if field1 ≠ "" ∧ field2 ≠ "" then
    if selectedType ≠ "" ∧
        (strIncludes (lowerStr selectedType) "pickup" = true ∨
         strIncludes (lowerStr selectedType) "delivery" = true) then some field2
    else if selectedType ≠ "" ∧ strIncludes (lowerStr selectedType) "order" = true then
      some field1
    else if field2.length < field1.length then some field1
    else some field2
  else some (if field1 = "" then field2 else field1)

/-! ### The fee classifier (`calculateDeliveryFee`) -/

/-- The apostrophe character, used in two configured store names. -/
def apos : Char := Char.ofNat 39

/-- The near zone list (fee 69). -/
def nearZones : List String :=
  ["Store Near AUP", "Dali Putting Kahoy", "Local Sari Sari Store",
   "Dante" ++ ⟨[apos]⟩ ++ "s", "Canteen", "AUP Cafeteria", "Loading Snacks",
   "Kusina ni Ate", "Chooks-to-Go (Puting Kahoy)",
   "Burgers & Fries Stalls (near trike terminal)"]

/-- The far zone list (fee 99). -/
def farZones : List String :=
  ["Santa Rosa Heights", "Wet Market", "Dali Santa Rosa", "Safe More",
   "Andok" ++ ⟨[apos]⟩ ++ "s Santa Rosa", "Mini Stop", "7-Eleven", "7 Eleven"]

/-- The very far zone list (fee 199). -/
def veryFarZones : List String :=
  ["Paseo", "Nuvali", "Fresh Market", "South Mall", "Robinson", "All Home",
   "SM City Sta. Rosa"]

/-- `zones.some(zone => store.toLowerCase().includes(zone.toLowerCase()))`. -/
def zoneMatches (zones : List String) (store : String) : Bool :=
  zones.any fun z => strIncludes (lowerStr store) (lowerStr z)

/-- `calculateDeliveryFee(store)`: `none` models a non-string argument and the
empty string is falsy, both giving fee 0; otherwise the very far, far and
near lists are checked in that order against the lowercased store name. -/
def calculateDeliveryFee (store : Option String) : ℚ :=
  match store with
  | none => 0
  | some s =>
    if s = "" then 0
    else if zoneMatches veryFarZones s then 199
    else if zoneMatches farZones s then 99
    else if zoneMatches nearZones s then 69
    else 0

/-! ### The order builder (`onFormSubmit`, lines 21-53) -/

/-- A form submission record, with the thirteen columns destructured by
`onFormSubmit` (timestamps as naturals). -/
structure Submission where
  timestamp : ℕ
  name : String
  email : String
  phone : String
  location : String
  room : String
  orderType : String
  orderField1 : String
  orderField2 : String
  store : String
  paymentMethod : String
  gcashRef : String
  termsAccepted : String
deriving DecidableEq

/-- The `orderDetails` record assembled by `onFormSubmit`. -/
structure OrderDetails where
  timestamp : ℕ
  name : String
  email : String
  phone : String
  location : String
  room : String
  items : List Item
  subtotal : ℚ
  deliveryFee : ℚ
  total : ℚ
  store : String
  paymentMethod : String
  gcashRef : String
  orderType : OrderFormat
  selectedOrderType : String
  orderSource : OrderSource
deriving DecidableEq

/-- `items.reduce((sum, item) => sum + (item.quantity * (item.price || 0)), 0)`
(for number-valued prices `price || 0` is `price`; a zero price contributes
zero either way). -/
def itemsSubtotal (items : List Item) : ℚ :=
  items.foldl (fun sum it => sum + (it.quantity : ℚ) * it.price) 0

/-- The pure order-building part of `onFormSubmit` (lines 19-53): terms and
email validation, field selection, text analysis, fee and totals; every
failure path (which only sends an email) is collapsed to `none`. -/
def buildOrder (sub : Submission) : Option OrderDetails :=
  if sub.termsAccepted = "" ∨ strIncludes (lowerStr sub.termsAccepted) "agree" = false ∨
      strIncludes sub.email "@" = false then none
  else
    match determineOrderField sub.orderField1 sub.orderField2 sub.orderType with
    | none => none
    | some rawOrder =>
      match parseOrderItemsEnhanced (some rawOrder) with
      | .failure _ => none
      | .success items detectedOrderType =>
        let subtotal := itemsSubtotal items
        let deliveryFee := calculateDeliveryFee (some sub.store)
        let total := subtotal + deliveryFee
        some { timestamp := sub.timestamp, name := sub.name, email := sub.email,
               phone := sub.phone, location := sub.location, room := sub.room,
               items := items, subtotal := subtotal, deliveryFee := deliveryFee,
               total := total, store := sub.store,
               paymentMethod := sub.paymentMethod, gcashRef := sub.gcashRef,
               orderType := detectedOrderType, selectedOrderType := sub.orderType,
               orderSource := orderSourceOf rawOrder sub.orderField1 }

/-! ### The daily aggregator (`sendDailySummary`, lines 858-902) -/

/-- A spreadsheet row as destructured by `sendDailySummary` (twelve columns;
the terms column is not read there). -/
structure Row where
  timestamp : ℕ
  name : String
  email : String
  phone : String
  location : String
  room : String
  orderType : String
  orderField1 : String
  orderField2 : String
  store : String
  paymentMethod : String
  gcashRef : String
deriving DecidableEq

/-- The per-order `orderData` record pushed onto `summary.orders` (it carries
no `total` field). -/
structure OrderData where
  timestamp : ℕ
  name : String
  email : String
  phone : String
  location : String
  room : String
  store : String
  items : List Item
  subtotal : ℚ
  deliveryFee : ℚ
  paymentMethod : String
  gcashRef : String
  orderType : OrderFormat
  selectedOrderType : String
  orderSource : OrderSource
deriving DecidableEq

/-- The `summary` object built by `sendDailySummary`.  `storeGroups` is a JS
object whose string keys iterate in insertion (first-seen) order, modelled as
an association list. -/
structure Summary where
  totalOrders : ℕ
  totalRevenue : ℚ
  totalDelivery : ℚ
  orders : List OrderData
  storeGroups : List (String × List OrderData)
deriving DecidableEq

/-- The per-row pipeline of the aggregation loop: field selection, text
analysis and fee classification; `none` when the row is skipped. -/
def rowToOrder (row : Row) : Option OrderData :=
  match determineOrderField row.orderField1 row.orderField2 row.orderType with
  | none => none
  | some rawOrder =>
    match parseOrderItemsEnhanced (some rawOrder) with
    | .failure _ => none
    | .success items detectedOrderType =>
      some { timestamp := row.timestamp, name := row.name, email := row.email,
             phone := row.phone, location := row.location, room := row.room,
             store := row.store, items := items,
             subtotal := itemsSubtotal items,
             deliveryFee := calculateDeliveryFee (some row.store),
             paymentMethod := row.paymentMethod, gcashRef := row.gcashRef,
             orderType := detectedOrderType, selectedOrderType := row.orderType,
             orderSource := orderSourceOf rawOrder row.orderField1 }

/-- `summary.storeGroups[store].push(orderData)`, creating the key at the end
on first sight. -/
def addToStoreGroups (gs : List (String × List OrderData)) (store : String)
    (o : OrderData) : List (String × List OrderData) :=
  match gs with
  | [] => [(store, [o])]
  | (k, os) :: t =>
    if k = store then (k, os ++ [o]) :: t
    else (k, os) :: addToStoreGroups t store o

/-- One iteration of the `todayOrders.forEach` body: a row whose selection or
analysis fails leaves the summary untouched; otherwise revenue, delivery
total, the orders list and the store grouping are updated. -/
def summaryStep (s : Summary) (row : Row) : Summary :=
  match rowToOrder row with
  | none => s
  | some o =>
    { s with totalRevenue := s.totalRevenue + o.subtotal,
             totalDelivery := s.totalDelivery + o.deliveryFee,
             orders := s.orders ++ [o],
             storeGroups := addToStoreGroups s.storeGroups row.store o }

/-- The summary construction of `sendDailySummary` (lines 858-902), applied
to the rows already filtered to the day: `totalOrders` is set to the row
count up front, then the per-row loop runs. -/
def buildDailySummary (rows : List Row) : Summary :=
  rows.foldl summaryStep
    { totalOrders := rows.length, totalRevenue := 0, totalDelivery := 0,
      orders := [], storeGroups := [] }

/-! ### The dispatch views (`generateDispatchText` line 975,
`generateDispatchPDF` line 789) -/

/-- `orders.sort((a, b) => new Date(a.timestamp) - new Date(b.timestamp))`:
a stable ascending sort by timestamp (ECMAScript `Array.prototype.sort` is
stable), modelled by insertion sort. -/
def sortOrdersByTimestamp (l : List OrderData) : List OrderData :=
  l.insertionSort fun a b => a.timestamp ≤ b.timestamp

/-- The effect of `generateDispatchText` (and equally `generateDispatchPDF`
and `generateDispatchHTML`) on the summary it is given: `orders.sort` sorts
the `summary.orders` array in place, so the summary comes back with its
orders list replaced by the chronologically sorted listing the view prints. -/
def generateDispatchTextRun (s : Summary) : Summary :=
  { s with orders := sortOrdersByTimestamp s.orders }

/-! ### Character class facts -/

theorem space_letter_absurd {c : Char} (h1 : isJsSpace c = true)
    (h2 : isAsciiLetter c = true) : False := by
  simp only [isJsSpace, isAsciiLetter, Bool.or_eq_true, Bool.and_eq_true,
    decide_eq_true_eq] at h1 h2
  omega

theorem not_space_of_letter {c : Char} (h : isAsciiLetter c = true) :
    isJsSpace c = false := by
  rw [Bool.eq_false_iff]
  intro hs
  exact space_letter_absurd hs h

theorem not_space_of_digit {c : Char} (h : isAsciiDigit c = true) :
    isJsSpace c = false := by
  rw [Bool.eq_false_iff]
  intro hs
  simp only [isJsSpace, isAsciiDigit, Bool.or_eq_true, Bool.and_eq_true,
    decide_eq_true_eq] at hs h
  omega

theorem not_digit_of_letter {c : Char} (h : isAsciiLetter c = true) :
    isAsciiDigit c = false := by
  rw [Bool.eq_false_iff]
  intro hd
  simp only [isAsciiDigit, isAsciiLetter, Bool.or_eq_true, Bool.and_eq_true,
    decide_eq_true_eq] at hd h
  omega

theorem wordSpace_of_letter {c : Char} (h : isAsciiLetter c = true) :
    isWordSpaceCh c = true := by
  simp [isWordSpaceCh, isWordCh, h]

theorem ne_at_of_letter {c : Char} (h : isAsciiLetter c = true) : c ≠ '@' := by
  intro he
  subst he
  simp [isAsciiLetter] at h

theorem ne_at_of_digit {c : Char} (h : isAsciiDigit c = true) : c ≠ '@' := by
  intro he
  subst he
  simp [isAsciiDigit] at h

/-! ### takeWhile, dropWhile and trim facts -/

theorem takeWhile_append_all {p : Char → Bool} {xs : List Char} (ys : List Char)
    (h : ∀ c ∈ xs, p c = true) :
    (xs ++ ys).takeWhile p = xs ++ ys.takeWhile p := by
  induction xs with
  | nil => simp
  | cons c t ih =>
    have hc : p c = true := h c (List.mem_cons_self c t)
    simp only [List.cons_append, List.takeWhile_cons_of_pos hc, List.cons.injEq, true_and]
    exact ih fun d hd => h d (List.mem_cons_of_mem c hd)

theorem dropWhile_append_all {p : Char → Bool} {xs : List Char} (ys : List Char)
    (h : ∀ c ∈ xs, p c = true) :
    (xs ++ ys).dropWhile p = ys.dropWhile p := by
  induction xs with
  | nil => simp
  | cons c t ih =>
    have hc : p c = true := h c (List.mem_cons_self c t)
    simp only [List.cons_append, List.dropWhile_cons_of_pos hc]
    exact ih fun d hd => h d (List.mem_cons_of_mem c hd)

theorem takeWhile_eq_self_of_all {p : Char → Bool} {xs : List Char}
    (h : ∀ c ∈ xs, p c = true) : xs.takeWhile p = xs := by
  have := takeWhile_append_all (p := p) [] h
  simpa using this

theorem dropWhile_eq_nil_of_all {p : Char → Bool} {xs : List Char}
    (h : ∀ c ∈ xs, p c = true) : xs.dropWhile p = [] := by
  have := dropWhile_append_all (p := p) [] h
  simpa using this

theorem takeWhile_append_stop {p : Char → Bool} {xs : List Char} (ys : List Char)
    (h : xs.dropWhile p ≠ []) :
    (xs ++ ys).takeWhile p = xs.takeWhile p := by
  induction xs with
  | nil => simp at h
  | cons c t ih =>
    cases hc : p c with
    | true =>
      have ht : t.dropWhile p ≠ [] := by
        simpa [List.dropWhile_cons_of_pos hc] using h
      simp [List.cons_append, List.takeWhile_cons_of_pos hc, ih ht]
    | false =>
      have hc' : ¬p c = true := by simp [hc]
      rw [List.cons_append, List.takeWhile_cons_of_neg hc', List.takeWhile_cons_of_neg hc']

theorem dropWhile_append_stop {p : Char → Bool} {xs : List Char} (ys : List Char)
    (h : xs.dropWhile p ≠ []) :
    (xs ++ ys).dropWhile p = xs.dropWhile p ++ ys := by
  induction xs with
  | nil => simp at h
  | cons c t ih =>
    cases hc : p c with
    | true =>
      have ht : t.dropWhile p ≠ [] := by
        simpa [List.dropWhile_cons_of_pos hc] using h
      simp [List.cons_append, List.dropWhile_cons_of_pos hc, ih ht]
    | false =>
      have hc' : ¬p c = true := by simp [hc]
      rw [List.cons_append, List.dropWhile_cons_of_neg hc', List.dropWhile_cons_of_neg hc',
        List.cons_append]

theorem head_dropWhile_not {p : Char → Bool} {l : List Char} {c : Char}
    (h : (l.dropWhile p).head? = some c) : p c = false := by
  induction l with
  | nil => simp at h
  | cons d t ih =>
    cases hd : p d with
    | true =>
      rw [List.dropWhile_cons_of_pos hd] at h
      exact ih h
    | false =>
      rw [List.dropWhile_cons_of_neg (by simp [hd])] at h
      simp only [List.head?_cons, Option.some.injEq] at h
      subst h
      exact hd

theorem mem_of_mem_dropWhile {p : Char → Bool} {l : List Char} {c : Char}
    (h : c ∈ l.dropWhile p) : c ∈ l :=
  (List.dropWhile_sublist p).mem h

theorem trimJs_sublist (l : List Char) : List.Sublist (trimJs l) l := by
  unfold trimJs
  have h1 : List.Sublist ((l.dropWhile isJsSpace).reverse.dropWhile isJsSpace)
      (l.dropWhile isJsSpace).reverse := List.dropWhile_sublist _
  have h2 := h1.reverse
  simp only [List.reverse_reverse] at h2
  exact h2.trans (List.dropWhile_sublist _)

theorem trimJs_eq_self {l : List Char}
    (h1 : ∀ c, l.head? = some c → isJsSpace c = false)
    (h2 : ∀ c, l.getLast? = some c → isJsSpace c = false) :
    trimJs l = l := by
  unfold trimJs
  cases l with
  | nil => rfl
  | cons c t =>
    have hc : isJsSpace c = false := h1 c rfl
    rw [List.dropWhile_cons_of_neg (by simp [hc])]
    have hlast : ∀ d, (c :: t).reverse.head? = some d → isJsSpace d = false := by
      intro d hd
      rw [List.head?_reverse] at hd
      exact h2 d hd
    cases hr : (c :: t).reverse with
    | nil => simp at hr
    | cons d r =>
      have hd : isJsSpace d = false := hlast d (by rw [hr]; rfl)
      have hd' : ¬isJsSpace d = true := by simp [hd]
      rw [List.dropWhile_cons_of_neg hd', ← hr, List.reverse_reverse]

theorem trimJs_eq_nil_of_all {l : List Char} (h : ∀ c ∈ l, isJsSpace c = true) :
    trimJs l = [] := by
  unfold trimJs
  rw [dropWhile_eq_nil_of_all h]
  rfl

theorem mem_trimJs_iff {l : List Char} {c : Char} (hc : isJsSpace c = false) :
    c ∈ trimJs l ↔ c ∈ l := by
  constructor
  · exact fun h => (trimJs_sublist l).mem h
  · intro h
    unfold trimJs
    rw [List.mem_reverse]
    have h1 : c ∈ l.dropWhile isJsSpace := by
      have h' : c ∈ l.takeWhile isJsSpace ++ l.dropWhile isJsSpace := by
        rw [List.takeWhile_append_dropWhile]
        exact h
      rcases List.mem_append.mp h' with h'' | h''
      · exact absurd (List.mem_takeWhile_imp h'') (by simp [hc])
      · exact h''
    have h2 : c ∈ (l.dropWhile isJsSpace).reverse := List.mem_reverse.mpr h1
    have h3 : c ∈ (l.dropWhile isJsSpace).reverse.takeWhile isJsSpace ++
        (l.dropWhile isJsSpace).reverse.dropWhile isJsSpace := by
      rw [List.takeWhile_append_dropWhile]
      exact h2
    rcases List.mem_append.mp h3 with h'' | h''
    · exact absurd (List.mem_takeWhile_imp h'') (by simp [hc])
    · exact h''

/-! ### Behaviour of the two scanners on well-formed single-item texts -/

theorem scanItemizedFuel_nil (f : ℕ) : scanItemizedFuel f [] = [] := by
  cases f <;> rfl

theorem scanPrepaidFuel_nil (f : ℕ) : scanPrepaidFuel f [] = [] := by
  cases f <;> rfl

/-- The tail of the itemized pattern consumes a well-formed
`" <qty>@<price>"` separator-and-price block completely. -/
theorem restItemized_sep {qty ip : List Char} {fr : Option (Char × Char)}
    (hq : qty ≠ []) (hqd : ∀ c ∈ qty, isAsciiDigit c = true)
    (hip : ip ≠ []) (hipd : ∀ c ∈ ip, isAsciiDigit c = true)
    (hfr : ∀ a b, fr = some (a, b) → isAsciiDigit a = true ∧ isAsciiDigit b = true) :
    restItemized (' ' :: (qty ++ '@' :: (ip ++ fracChars fr))) =
      some ⟨qty, ip, fr, []⟩ := by
  obtain ⟨q0, qt, rfl⟩ : ∃ q0 qt, qty = q0 :: qt := by
    cases qty with
    | nil => exact absurd rfl hq
    | cons a b => exact ⟨a, b, rfl⟩
  obtain ⟨i0, it, rfl⟩ : ∃ i0 it, ip = i0 :: it := by
    cases ip with
    | nil => exact absurd rfl hip
    | cons a b => exact ⟨a, b, rfl⟩
  have hq0 : isAsciiDigit q0 = true := hqd q0 (List.mem_cons_self _ _)
  have hi0 : isAsciiDigit i0 = true := hipd i0 (List.mem_cons_self _ _)
  have hq0s : ¬isJsSpace q0 = true := by simp [not_space_of_digit hq0]
  have hi0s : ¬isJsSpace i0 = true := by simp [not_space_of_digit hi0]
  have hsp : isJsSpace ' ' = true := by decide
  have hatd : ¬isAsciiDigit '@' = true := by decide
  have hats : ¬isJsSpace '@' = true := by decide
  have hdotd : ¬isAsciiDigit '.' = true := by decide
  have h1 : ((' ' : Char) :: ((q0 :: qt) ++ '@' :: ((i0 :: it) ++ fracChars fr))).takeWhile
      isJsSpace = [' '] := by
    rw [List.takeWhile_cons_of_pos hsp, List.cons_append,
      List.takeWhile_cons_of_neg hq0s]
  have h2 : ((' ' : Char) :: ((q0 :: qt) ++ '@' :: ((i0 :: it) ++ fracChars fr))).dropWhile
      isJsSpace = (q0 :: qt) ++ '@' :: ((i0 :: it) ++ fracChars fr) := by
    rw [List.dropWhile_cons_of_pos hsp, List.cons_append,
      List.dropWhile_cons_of_neg hq0s, List.cons_append]
  have h3 : ((q0 :: qt) ++ '@' :: ((i0 :: it) ++ fracChars fr)).takeWhile isAsciiDigit =
      q0 :: qt := by
    rw [takeWhile_append_all _ hqd, List.takeWhile_cons_of_neg hatd, List.append_nil]
  have h4 : ((q0 :: qt) ++ '@' :: ((i0 :: it) ++ fracChars fr)).dropWhile isAsciiDigit =
      '@' :: ((i0 :: it) ++ fracChars fr) := by
    rw [dropWhile_append_all _ hqd, List.dropWhile_cons_of_neg hatd]
  have h5 : ('@' :: ((i0 :: it) ++ fracChars fr)).dropWhile isJsSpace =
      '@' :: ((i0 :: it) ++ fracChars fr) := by
    rw [List.dropWhile_cons_of_neg hats]
  have h6 : ((i0 :: it) ++ fracChars fr).dropWhile isJsSpace =
      (i0 :: it) ++ fracChars fr := by
    rw [List.cons_append, List.dropWhile_cons_of_neg hi0s]
  have h7 : ((i0 :: it) ++ fracChars fr).takeWhile isAsciiDigit = i0 :: it := by
    cases fr with
    | none => simp only [fracChars, List.append_nil, takeWhile_eq_self_of_all hipd]
    | some ab =>
      obtain ⟨a, b⟩ := ab
      rw [show fracChars (some (a, b)) = '.' :: [a, b] from rfl,
        takeWhile_append_all _ hipd, List.takeWhile_cons_of_neg hdotd, List.append_nil]
  have h8 : ((i0 :: it) ++ fracChars fr).dropWhile isAsciiDigit = fracChars fr := by
    cases fr with
    | none =>
      simp only [fracChars, List.append_nil]
      exact dropWhile_eq_nil_of_all hipd
    | some ab =>
      obtain ⟨a, b⟩ := ab
      rw [show fracChars (some (a, b)) = '.' :: [a, b] from rfl,
        dropWhile_append_all _ hipd, List.dropWhile_cons_of_neg hdotd]
  unfold restItemized
  rw [h1]
  simp only [List.isEmpty_cons, Bool.false_eq_true, if_false, h2, h3, h4, h5, h6, h7, h8]
  cases fr with
  | none => simp [fracChars]
  | some ab =>
    obtain ⟨a, b⟩ := ab
    obtain ⟨ha, hb⟩ := hfr a b rfl
    simp [fracChars, ha, hb]

/-- The tail of the prepaid pattern consumes a well-formed `" <qty>"` block
completely (nothing follows, so the lookahead succeeds). -/
theorem restPrepaid_sep {qty : List Char} (hq : qty ≠ [])
    (hqd : ∀ c ∈ qty, isAsciiDigit c = true) :
    restPrepaid (' ' :: qty) = some ⟨qty, []⟩ := by
  obtain ⟨q0, qt, rfl⟩ : ∃ q0 qt, qty = q0 :: qt := by
    cases qty with
    | nil => exact absurd rfl hq
    | cons a b => exact ⟨a, b, rfl⟩
  have hq0 : isAsciiDigit q0 = true := hqd q0 (List.mem_cons_self _ _)
  have hq0s : ¬isJsSpace q0 = true := by simp [not_space_of_digit hq0]
  have hsp : isJsSpace ' ' = true := by decide
  have h1 : ((' ' : Char) :: (q0 :: qt)).takeWhile isJsSpace = [' '] := by
    rw [List.takeWhile_cons_of_pos hsp, List.takeWhile_cons_of_neg hq0s]
  have h2 : ((' ' : Char) :: (q0 :: qt)).dropWhile isJsSpace = q0 :: qt := by
    rw [List.dropWhile_cons_of_pos hsp, List.dropWhile_cons_of_neg hq0s]
  have h3 : (q0 :: qt).takeWhile isAsciiDigit = q0 :: qt :=
    takeWhile_eq_self_of_all hqd
  have h4 : (q0 :: qt).dropWhile isAsciiDigit = [] :=
    dropWhile_eq_nil_of_all hqd
  unfold restPrepaid
  rw [h1]
  simp only [List.isEmpty_cons, Bool.false_eq_true, if_false, h2, h3, h4]
  simp [wsAtFollows]

/-- Inside the name (whose first non-space character is a letter), neither
pattern tail can match: after the optional whitespace run a digit is
required, but a letter follows. -/
theorem restItemized_none_inside {r X : List Char}
    (hne : r.dropWhile isJsSpace ≠ [])
    (hhd : ∀ c, (r.dropWhile isJsSpace).head? = some c → isAsciiLetter c = true) :
    restItemized (r ++ X) = none := by
  obtain ⟨d, dr, hdr⟩ : ∃ d dr, r.dropWhile isJsSpace = d :: dr := by
    cases h : r.dropWhile isJsSpace with
    | nil => exact absurd h hne
    | cons a b => exact ⟨a, b, rfl⟩
  have hd : isAsciiLetter d = true := hhd d (by rw [hdr]; rfl)
  have hdd : ¬isAsciiDigit d = true := by simp [not_digit_of_letter hd]
  have h2 : (r ++ X).dropWhile isJsSpace = d :: (dr ++ X) := by
    rw [dropWhile_append_stop X hne, hdr, List.cons_append]
  unfold restItemized
  by_cases hws : ((r ++ X).takeWhile isJsSpace).isEmpty
  · rw [if_pos hws]
  · rw [if_neg hws]
    simp only [h2, List.takeWhile_cons_of_neg hdd, List.isEmpty_nil, if_true]

/-- Same fact for the prepaid tail. -/
theorem restPrepaid_none_inside {r X : List Char}
    (hne : r.dropWhile isJsSpace ≠ [])
    (hhd : ∀ c, (r.dropWhile isJsSpace).head? = some c → isAsciiLetter c = true) :
    restPrepaid (r ++ X) = none := by
  obtain ⟨d, dr, hdr⟩ : ∃ d dr, r.dropWhile isJsSpace = d :: dr := by
    cases h : r.dropWhile isJsSpace with
    | nil => exact absurd h hne
    | cons a b => exact ⟨a, b, rfl⟩
  have hd : isAsciiLetter d = true := hhd d (by rw [hdr]; rfl)
  have hdd : ¬isAsciiDigit d = true := by simp [not_digit_of_letter hd]
  have h2 : (r ++ X).dropWhile isJsSpace = d :: (dr ++ X) := by
    rw [dropWhile_append_stop X hne, hdr, List.cons_append]
  unfold restPrepaid
  by_cases hws : ((r ++ X).takeWhile isJsSpace).isEmpty
  · rw [if_pos hws]
  · rw [if_neg hws]
    simp only [h2, List.takeWhile_cons_of_neg hdd, List.isEmpty_nil, if_true]

/-- A nonempty suffix of a letters-and-spaces name whose last character is a
letter starts (after any leading spaces) with a letter. -/
theorem nameSuffix_facts {name pre r : List Char}
    (hch : ∀ c ∈ name, isAsciiLetter c = true ∨ c = ' ')
    (hlast : name.getLast?.all isAsciiLetter = true)
    (happ : pre ++ r = name) (hr : r ≠ []) :
    r.dropWhile isJsSpace ≠ [] ∧
      ∀ c, (r.dropWhile isJsSpace).head? = some c → isAsciiLetter c = true := by
  obtain ⟨y, hy⟩ : ∃ y, r.getLast? = some y := by
    have := List.getLast?_isSome.mpr hr
    cases h : r.getLast? with
    | none => rw [h] at this; simp at this
    | some y => exact ⟨y, rfl⟩
  have hylet : isAsciiLetter y = true := by
    have hname : name.getLast? = some y := by
      rw [← happ, List.getLast?_append, hy]
      rfl
    rw [hname] at hlast
    exact hlast
  constructor
  · intro hnil
    have hall := List.dropWhile_eq_nil_iff.mp hnil
    have hymem : y ∈ r := List.mem_of_getLast?_eq_some hy
    have := hall y hymem
    exact absurd this (by simp [not_space_of_letter hylet])
  · intro c hc
    have hcs : isJsSpace c = false := head_dropWhile_not hc
    have hcr : c ∈ r := by
      obtain ⟨ys, hys⟩ := List.head?_eq_some_iff.mp hc
      exact mem_of_mem_dropWhile (hys ▸ List.mem_cons_self c ys)
    have hcn : c ∈ name := by
      rw [← happ]
      exact List.mem_append.mpr (Or.inr hcr)
    rcases hch c hcn with h | h
    · exact h
    · subst h
      simp [show isJsSpace ' ' = true from by decide] at hcs

/-- At every start position inside the name, the lazy name group of the
itemized attempt extends until it has absorbed the whole name, and the match
then consumes the entire `" <qty>@<price>"` block. -/
theorem findItemized_full {name qty ip : List Char} {fr : Option (Char × Char)}
    (hch : ∀ c ∈ name, isAsciiLetter c = true ∨ c = ' ')
    (hlast : name.getLast?.all isAsciiLetter = true)
    (hq : qty ≠ []) (hqd : ∀ c ∈ qty, isAsciiDigit c = true)
    (hip : ip ≠ []) (hipd : ∀ c ∈ ip, isAsciiDigit c = true)
    (hfr : ∀ a b, fr = some (a, b) → isAsciiDigit a = true ∧ isAsciiDigit b = true) :
    ∀ r pre, pre ++ r = name → r ≠ [] →
      findItemized pre (r ++ (' ' :: (qty ++ '@' :: (ip ++ fracChars fr)))) =
        some (name, ⟨qty, ip, fr, []⟩) := by
  intro r
  induction r with
  | nil => exact fun pre _ hr => absurd rfl hr
  | cons c r' ih =>
    intro pre happ _
    have hcmem : c ∈ name := by
      rw [← happ]
      exact List.mem_append.mpr (Or.inr (List.mem_cons_self c r'))
    have hcws : isWordSpaceCh c = true := by
      rcases hch c hcmem with h | h
      · exact wordSpace_of_letter h
      · subst h; decide
    rw [List.cons_append]
    simp only [findItemized, hcws, if_true]
    by_cases hr' : r' = []
    · subst hr'
      simp only [List.nil_append]
      rw [restItemized_sep hq hqd hip hipd hfr]
      have : pre ++ [c] = name := happ
      rw [this]
    · have happ' : (pre ++ [c]) ++ r' = name := by
        rw [List.append_assoc, List.singleton_append]
        exact happ
      obtain ⟨hne', hhd'⟩ := nameSuffix_facts hch hlast happ' hr'
      rw [restItemized_none_inside hne' hhd']
      exact ih (pre ++ [c]) happ' hr'

/-- The prepaid analogue of `findItemized_full`. -/
theorem findPrepaid_full {name qty : List Char}
    (hch : ∀ c ∈ name, isAsciiLetter c = true ∨ c = ' ')
    (hlast : name.getLast?.all isAsciiLetter = true)
    (hq : qty ≠ []) (hqd : ∀ c ∈ qty, isAsciiDigit c = true) :
    ∀ r pre, pre ++ r = name → r ≠ [] →
      findPrepaid pre (r ++ (' ' :: qty)) = some (name, ⟨qty, []⟩) := by
  intro r
  induction r with
  | nil => exact fun pre _ hr => absurd rfl hr
  | cons c r' ih =>
    intro pre happ _
    have hcmem : c ∈ name := by
      rw [← happ]
      exact List.mem_append.mpr (Or.inr (List.mem_cons_self c r'))
    have hcws : isWordSpaceCh c = true := by
      rcases hch c hcmem with h | h
      · exact wordSpace_of_letter h
      · subst h; decide
    rw [List.cons_append]
    simp only [findPrepaid, hcws, if_true]
    by_cases hr' : r' = []
    · subst hr'
      simp only [List.nil_append]
      rw [restPrepaid_sep hq hqd]
      have : pre ++ [c] = name := happ
      rw [this]
    · have happ' : (pre ++ [c]) ++ r' = name := by
        rw [List.append_assoc, List.singleton_append]
        exact happ
      obtain ⟨hne', hhd'⟩ := nameSuffix_facts hch hlast happ' hr'
      rw [restPrepaid_none_inside hne' hhd']
      exact ih (pre ++ [c]) happ' hr'

/-- On a well-formed `"<name> <qty>@<price>"` text the itemized scanner finds
exactly one match, with the name, quantity and price groups intact. -/
theorem scanItemized_single {name qty ip : List Char} {fr : Option (Char × Char)}
    (hne : name ≠ [])
    (hch : ∀ c ∈ name, isAsciiLetter c = true ∨ c = ' ')
    (hlast : name.getLast?.all isAsciiLetter = true)
    (hq : qty ≠ []) (hqd : ∀ c ∈ qty, isAsciiDigit c = true)
    (hip : ip ≠ []) (hipd : ∀ c ∈ ip, isAsciiDigit c = true)
    (hfr : ∀ a b, fr = some (a, b) → isAsciiDigit a = true ∧ isAsciiDigit b = true) :
    scanItemized (name ++ (' ' :: (qty ++ '@' :: (ip ++ fracChars fr)))) =
      [⟨name, qty, ip, fr⟩] := by
  obtain ⟨n0, nt, rfl⟩ : ∃ n0 nt, name = n0 :: nt := by
    cases name with
    | nil => exact absurd rfl hne
    | cons a b => exact ⟨a, b, rfl⟩
  have hf := findItemized_full hch hlast hq hqd hip hipd hfr (n0 :: nt) [] rfl
    (List.cons_ne_nil n0 nt)
  rw [List.cons_append] at hf
  unfold scanItemized
  rw [List.cons_append, List.length_cons]
  simp only [scanItemizedFuel, hf, scanItemizedFuel_nil]

/-- On a well-formed `"<name> <qty>"` text the prepaid scanner finds exactly
one match. -/
theorem scanPrepaid_single {name qty : List Char}
    (hne : name ≠ [])
    (hch : ∀ c ∈ name, isAsciiLetter c = true ∨ c = ' ')
    (hlast : name.getLast?.all isAsciiLetter = true)
    (hq : qty ≠ []) (hqd : ∀ c ∈ qty, isAsciiDigit c = true) :
    scanPrepaid (name ++ (' ' :: qty)) = [⟨name, qty⟩] := by
  obtain ⟨n0, nt, rfl⟩ : ∃ n0 nt, name = n0 :: nt := by
    cases name with
    | nil => exact absurd rfl hne
    | cons a b => exact ⟨a, b, rfl⟩
  have hf := findPrepaid_full hch hlast hq hqd (n0 :: nt) [] rfl (List.cons_ne_nil n0 nt)
  rw [List.cons_append] at hf
  unfold scanPrepaid
  rw [List.cons_append, List.length_cons]
  simp only [scanPrepaidFuel, hf, scanPrepaidFuel_nil]

/-- The itemized tail can only succeed past a literal `@`. -/
theorem at_mem_of_restItemized {l : List Char} {tl : ItemizedTail}
    (h : restItemized l = some tl) : '@' ∈ l := by
  simp only [restItemized] at h
  split at h
  · exact absurd h (by simp)
  · split at h
    · exact absurd h (by simp)
    · split at h
      case _ l4 heq =>
        have h1 : '@' ∈ ((l.dropWhile isJsSpace).dropWhile isAsciiDigit).dropWhile isJsSpace := by
          rw [heq]
          exact List.mem_cons_self _ _
        exact mem_of_mem_dropWhile (mem_of_mem_dropWhile (mem_of_mem_dropWhile h1))
      case _ =>
        exact absurd h (by simp)

/-- So can the whole itemized attempt. -/
theorem at_mem_of_findItemized {acc l : List Char} {x : List Char × ItemizedTail}
    (h : findItemized acc l = some x) : '@' ∈ l := by
  induction l generalizing acc with
  | nil => simp [findItemized] at h
  | cons c t ih =>
    simp only [findItemized] at h
    split at h
    · split at h
      case _ tl heq => exact List.mem_cons_of_mem c (at_mem_of_restItemized heq)
      case _ => exact List.mem_cons_of_mem c (ih h)
    · exact absurd h (by simp)

/-- A text without `@` has no itemized matches at all. -/
theorem scanItemizedFuel_nil_of_no_at {f : ℕ} {l : List Char} (h : '@' ∉ l) :
    scanItemizedFuel f l = [] := by
  induction f generalizing l with
  | zero => rfl
  | succ f ih =>
    cases l with
    | nil => rfl
    | cons c t =>
      have hnone : findItemized [] (c :: t) = none := by
        cases hf : findItemized [] (c :: t) with
        | none => rfl
        | some x => exact absurd (at_mem_of_findItemized hf) h
      simp only [scanItemizedFuel, hnone]
      exact ih fun hm => h (List.mem_cons_of_mem c hm)

/-! ### Auxiliary facts for the parser claims -/

theorem toList_mk (l : List Char) : (⟨l⟩ : String).toList = l := rfl

theorem string_mk_ne_empty {l : List Char} (h : l ≠ []) : (⟨l⟩ : String) ≠ "" := by
  intro he
  exact h (by simpa using String.ext_iff.mp he)

theorem priceVal_nonneg (ip : List Char) (fr : Option (Char × Char)) :
    0 ≤ priceVal ip fr := by
  unfold priceVal
  cases fr with
  | none => simp
  | some ab =>
    obtain ⟨a, b⟩ := ab
    exact add_nonneg (Nat.cast_nonneg _)
      (div_nonneg (Nat.cast_nonneg _) (by norm_num))

theorem exists_getLast?_of_ne_nil {l : List Char} (h : l ≠ []) :
    ∃ y, l.getLast? = some y := by
  cases hy : l.getLast? with
  | none => exact absurd (List.getLast?_eq_none_iff.mp hy) h
  | some y => exact ⟨y, rfl⟩

theorem getLast?_append_right {l m : List Char} {y : Char}
    (h : m.getLast? = some y) : (l ++ m).getLast? = some y := by
  rw [List.getLast?_append, h]
  rfl

/-- C3: for every text of the form `<name> <qty>@<price>` — name a nonempty
string of letters and spaces beginning and ending with a letter, qty a digit
string of positive value, price a digit string optionally followed by a dot
and exactly two digits (the non-negative decimals of the itemized grammar) —
`parseOrder` succeeds with format Itemized and exactly one line item whose
name, quantity and price reconstruct the name, qty and price of the input. -/
theorem parseOrder_itemized_roundtrip
    (name qty ip : List Char) (fr : Option (Char × Char))
    (hne : name ≠ [])
    (hch : ∀ c ∈ name, isAsciiLetter c = true ∨ c = ' ')
    (hhd : name.head?.all isAsciiLetter = true)
    (hlast : name.getLast?.all isAsciiLetter = true)
    (hq : qty ≠ []) (hqd : ∀ c ∈ qty, isAsciiDigit c = true)
    (hqpos : 0 < digitsVal qty)
    (hip : ip ≠ []) (hipd : ∀ c ∈ ip, isAsciiDigit c = true)
    (hfr : ∀ a b, fr = some (a, b) → isAsciiDigit a = true ∧ isAsciiDigit b = true) :
    parseOrderItemsEnhanced
        (some ⟨name ++ (' ' :: (qty ++ '@' :: (ip ++ fracChars fr)))⟩) =
      .success [⟨⟨name⟩, digitsVal qty, priceVal ip fr⟩] .itemized := by
  obtain ⟨n0, nt, rfl⟩ : ∃ n0 nt, name = n0 :: nt := by
    cases name with
    | nil => exact absurd rfl hne
    | cons a b => exact ⟨a, b, rfl⟩
  have hn0 : isAsciiLetter n0 = true := hhd
  have hlast' : ∀ c, (n0 :: nt).getLast? = some c → isAsciiLetter c = true := by
    intro c hc
    rw [hc] at hlast
    exact hlast
  have hLlast : ∃ y, ((n0 :: nt) ++ (' ' :: (qty ++ '@' :: (ip ++ fracChars fr)))).getLast?
      = some y ∧ isAsciiDigit y = true := by
    have hfc : ∃ y, (ip ++ fracChars fr).getLast? = some y ∧ isAsciiDigit y = true := by
      cases fr with
      | none =>
        obtain ⟨y, hy⟩ := exists_getLast?_of_ne_nil hip
        exact ⟨y, by simpa [fracChars] using hy,
          hipd y (List.mem_of_getLast?_eq_some hy)⟩
      | some ab =>
        obtain ⟨a, b⟩ := ab
        refine ⟨b, ?_, (hfr a b rfl).2⟩
        rw [show fracChars (some (a, b)) = ['.', a, b] from rfl]
        exact getLast?_append_right (by simp)
    obtain ⟨y, hy, hyd⟩ := hfc
    refine ⟨y, ?_, hyd⟩
    apply getLast?_append_right
    rw [show (' ' :: (qty ++ '@' :: (ip ++ fracChars fr)))
        = [' '] ++ (qty ++ '@' :: (ip ++ fracChars fr)) from rfl]
    apply getLast?_append_right
    apply getLast?_append_right
    rw [show ('@' :: (ip ++ fracChars fr)) = ['@'] ++ (ip ++ fracChars fr) from rfl]
    exact getLast?_append_right hy
  have htrim : trimJs ((n0 :: nt) ++ (' ' :: (qty ++ '@' :: (ip ++ fracChars fr))))
      = (n0 :: nt) ++ (' ' :: (qty ++ '@' :: (ip ++ fracChars fr))) := by
    apply trimJs_eq_self
    · intro c hc
      rw [List.cons_append, List.head?_cons] at hc
      injection hc with hc
      subst hc
      exact not_space_of_letter hn0
    · intro c hc
      obtain ⟨y, hy, hyd⟩ := hLlast
      rw [hy] at hc
      injection hc with hc
      subst hc
      exact not_space_of_digit hyd
  have htrimname : trimJs (n0 :: nt) = n0 :: nt := by
    apply trimJs_eq_self
    · intro c hc
      rw [List.head?_cons] at hc
      injection hc with hc
      subst hc
      exact not_space_of_letter hn0
    · intro c hc
      exact not_space_of_letter (hlast' c hc)
  have hstr : (⟨(n0 :: nt) ++ (' ' :: (qty ++ '@' :: (ip ++ fracChars fr)))⟩ : String)
      ≠ "" := string_mk_ne_empty (by simp)
  have hscan := scanItemized_single (List.cons_ne_nil n0 nt) hch hlast hq hqd hip hipd hfr
  have hval : validItemized ⟨⟨n0 :: nt⟩, digitsVal qty, priceVal ip fr⟩ = true := by
    unfold validItemized
    simp only [Bool.and_eq_true, decide_eq_true_eq]
    exact ⟨⟨string_mk_ne_empty (List.cons_ne_nil n0 nt), hqpos⟩, priceVal_nonneg ip fr⟩
  simp only [parseOrderItemsEnhanced]
  rw [if_neg hstr]
  simp only [toList_mk, htrim, hscan, List.map_cons, List.map_nil, htrimname,
    List.filter_cons_of_pos hval, List.filter_nil]
  simp

/-- C4: for every text of the form `<name> <qty>` (which contains no `@`) —
name as in C3, qty a digit string of positive value — `parseOrder` succeeds
with format Prepaid and exactly one line item whose price is forced to 0. -/
theorem parseOrder_prepaid_roundtrip
    (name qty : List Char)
    (hne : name ≠ [])
    (hch : ∀ c ∈ name, isAsciiLetter c = true ∨ c = ' ')
    (hhd : name.head?.all isAsciiLetter = true)
    (hlast : name.getLast?.all isAsciiLetter = true)
    (hq : qty ≠ []) (hqd : ∀ c ∈ qty, isAsciiDigit c = true)
    (hqpos : 0 < digitsVal qty) :
    parseOrderItemsEnhanced (some ⟨name ++ (' ' :: qty)⟩) =
      .success [⟨⟨name⟩, digitsVal qty, 0⟩] .prepaid := by
  obtain ⟨n0, nt, rfl⟩ : ∃ n0 nt, name = n0 :: nt := by
    cases name with
    | nil => exact absurd rfl hne
    | cons a b => exact ⟨a, b, rfl⟩
  have hn0 : isAsciiLetter n0 = true := hhd
  have hlast' : ∀ c, (n0 :: nt).getLast? = some c → isAsciiLetter c = true := by
    intro c hc
    rw [hc] at hlast
    exact hlast
  have hat : '@' ∉ (n0 :: nt) ++ (' ' :: qty) := by
    intro hmem
    rcases List.mem_append.mp hmem with hm | hm
    · rcases hch '@' hm with h | h
      · exact absurd h (by decide)
      · exact absurd h (by decide)
    · rcases List.mem_cons.mp hm with h | h
      · exact absurd h (by decide)
      · exact absurd (hqd '@' h) (by decide)
  have hLlast : ∃ y, ((n0 :: nt) ++ (' ' :: qty)).getLast? = some y ∧
      isAsciiDigit y = true := by
    obtain ⟨y, hy⟩ := exists_getLast?_of_ne_nil hq
    refine ⟨y, ?_, hqd y (List.mem_of_getLast?_eq_some hy)⟩
    apply getLast?_append_right
    rw [show (' ' :: qty) = [' '] ++ qty from rfl]
    exact getLast?_append_right hy
  have htrim : trimJs ((n0 :: nt) ++ (' ' :: qty)) = (n0 :: nt) ++ (' ' :: qty) := by
    apply trimJs_eq_self
    · intro c hc
      rw [List.cons_append, List.head?_cons] at hc
      injection hc with hc
      subst hc
      exact not_space_of_letter hn0
    · intro c hc
      obtain ⟨y, hy, hyd⟩ := hLlast
      rw [hy] at hc
      injection hc with hc
      subst hc
      exact not_space_of_digit hyd
  have htrimname : trimJs (n0 :: nt) = n0 :: nt := by
    apply trimJs_eq_self
    · intro c hc
      rw [List.head?_cons] at hc
      injection hc with hc
      subst hc
      exact not_space_of_letter hn0
    · intro c hc
      exact not_space_of_letter (hlast' c hc)
  have hstr : (⟨(n0 :: nt) ++ (' ' :: qty)⟩ : String) ≠ "" :=
    string_mk_ne_empty (by simp)
  have hscanIt : scanItemized ((n0 :: nt) ++ (' ' :: qty)) = [] :=
    scanItemizedFuel_nil_of_no_at hat
  have hscanPp := scanPrepaid_single (List.cons_ne_nil n0 nt) hch hlast hq hqd
  have hval : validPrepaid ⟨⟨n0 :: nt⟩, digitsVal qty, 0⟩ = true := by
    unfold validPrepaid
    simp only [Bool.and_eq_true, decide_eq_true_eq]
    exact ⟨string_mk_ne_empty (List.cons_ne_nil n0 nt), hqpos⟩
  simp only [parseOrderItemsEnhanced]
  rw [if_neg hstr]
  simp only [toList_mk, htrim, hscanIt, List.length_nil, List.map_nil, List.filter_nil,
    hscanPp, List.map_cons, List.map_nil, htrimname, List.filter_cons_of_pos hval]
  simp

/-- Witness for C3 at the concrete input `"Burger 2@80"`. -/
theorem parseOrder_itemized_roundtrip_witness :
    parseOrderItemsEnhanced
        (some ⟨['B', 'u', 'r', 'g', 'e', 'r'] ++
          (' ' :: (['2'] ++ '@' :: (['8', '0'] ++ fracChars none)))⟩) =
      .success [⟨⟨['B', 'u', 'r', 'g', 'e', 'r']⟩, digitsVal ['2'],
        priceVal ['8', '0'] none⟩] .itemized :=
  parseOrder_itemized_roundtrip ['B', 'u', 'r', 'g', 'e', 'r'] ['2'] ['8', '0'] none
    (by decide) (by decide) (by decide) (by decide) (by decide) (by decide)
    (by decide) (by decide) (by decide) (by simp)

/-- Witness for C4 at the concrete input `"Fries 1"`. -/
theorem parseOrder_prepaid_roundtrip_witness :
    parseOrderItemsEnhanced (some ⟨['F', 'r', 'i', 'e', 's'] ++ (' ' :: ['1'])⟩) =
      .success [⟨⟨['F', 'r', 'i', 'e', 's']⟩, digitsVal ['1'], 0⟩] .prepaid :=
  parseOrder_prepaid_roundtrip ['F', 'r', 'i', 'e', 's'] ['1']
    (by decide) (by decide) (by decide) (by decide) (by decide) (by decide) (by decide)

/-- C5: `parseOrder` classifies every failure precisely: empty or non-string
input yields EmptyOrder before any grammar attempt; otherwise, when the
result is a failure (neither grammar yielded a fully valid item set), input
containing `@` yields InvalidItemizedFormat, else input containing a digit
yields InvalidPrepaidFormat, else UnrecognizableFormat. -/
theorem parseOrder_failure_classification :
    parseOrderItemsEnhanced none = .failure .empty_order ∧
    parseOrderItemsEnhanced (some "") = .failure .empty_order ∧
    ∀ (s : String) (e : ParseErr), s ≠ "" →
      parseOrderItemsEnhanced (some s) = .failure e →
      e = (if '@' ∈ s.toList then .invalid_itemized_format
           else if s.toList.any isAsciiDigit = true then .invalid_prepaid_format
           else .unrecognizable_format) := by
  refine ⟨rfl, rfl, ?_⟩
  intro s e hs h
  have hatmem : ∀ {l : List Char}, l.contains '@' = true → '@' ∈ l := by
    intro l hc
    rw [List.contains_eq_any_beq] at hc
    obtain ⟨x, hx, hbeq⟩ := List.any_eq_true.mp hc
    obtain rfl : '@' = x := by exact beq_iff_eq.mp hbeq
    exact hx
  have hmemat : ∀ {l : List Char}, '@' ∈ l → l.contains '@' = true := by
    intro l hm
    rw [List.contains_eq_any_beq]
    exact List.any_eq_true.mpr ⟨'@', hm, by simp⟩
  simp only [parseOrderItemsEnhanced] at h
  rw [if_neg hs] at h
  split at h
  · exact absurd h (by simp)
  · split at h
    · exact absurd h (by simp)
    · split at h
      case _ hc =>
        have h1 : '@' ∈ trimJs s.toList := hatmem hc
        have h2 : '@' ∈ s.toList := (mem_trimJs_iff (by decide)).mp h1
        rw [if_pos h2]
        injection h with h'
        exact h'.symm
      case _ hc =>
        have hnat : '@' ∉ s.toList := by
          intro hm
          exact hc (hmemat ((mem_trimJs_iff (by decide)).mpr hm))
        rw [if_neg hnat]
        split at h
        case _ hd =>
          obtain ⟨x, hx, hxd⟩ := List.any_eq_true.mp hd
          have hx' : x ∈ s.toList := (mem_trimJs_iff (not_space_of_digit hxd)).mp hx
          rw [if_pos (List.any_eq_true.mpr ⟨x, hx', hxd⟩)]
          injection h with h'
          exact h'.symm
        case _ hd =>
          have hnd : ¬s.toList.any isAsciiDigit = true := by
            intro hany
            obtain ⟨x, hx, hxd⟩ := List.any_eq_true.mp hany
            exact hd (List.any_eq_true.mpr
              ⟨x, (mem_trimJs_iff (not_space_of_digit hxd)).mpr hx, hxd⟩)
          rw [if_neg hnd]
          injection h with h'
          exact h'.symm

/-- Witness for C5 at the concrete failing input `"@@"`. -/
theorem parseOrder_failure_classification_witness :
    parseOrderItemsEnhanced (some "@@") = .failure .invalid_itemized_format ∧
    ParseErr.invalid_itemized_format =
      (if '@' ∈ ("@@" : String).toList then ParseErr.invalid_itemized_format
       else if ("@@" : String).toList.any isAsciiDigit = true then
         ParseErr.invalid_prepaid_format
       else ParseErr.unrecognizable_format) :=
  ⟨by decide, parseOrder_failure_classification.2.2 "@@" .invalid_itemized_format
    (by decide) (by decide)⟩

/-- C6: `parseOrder("Burger @80")`, an `@`-price attempt with no quantity,
matches neither grammar and returns the classified failure
InvalidItemizedFormat — never a success with a partial item list. -/
theorem parseOrder_at_price_without_quantity_fails :
    parseOrderItemsEnhanced (some "Burger @80") = .failure .invalid_itemized_format := by
  decide

/-- C10: a nonempty string of only whitespace passes the raw-emptiness
short-circuit (it is tested before trimming), matches neither grammar,
contains no `@` and no digit, and is classified UnrecognizableFormat,
not EmptyOrder. -/
theorem parseOrder_whitespace_only_unrecognizable :
    ∀ s : String, s ≠ "" → (∀ c ∈ s.toList, isJsSpace c = true) →
      parseOrderItemsEnhanced (some s) = .failure .unrecognizable_format := by
  intro s hs hws
  have ht : trimJs s.toList = [] := trimJs_eq_nil_of_all hws
  simp only [parseOrderItemsEnhanced]
  rw [if_neg hs, ht]
  simp [scanItemized, scanPrepaid, scanItemizedFuel, scanPrepaidFuel]

/-- Witness for C10 at the concrete input `" "`. -/
theorem parseOrder_whitespace_only_unrecognizable_witness :
    parseOrderItemsEnhanced (some " ") = .failure .unrecognizable_format :=
  parseOrder_whitespace_only_unrecognizable " " (by decide) (by decide)

/-- C7: `classifyFee` matches the lowercased store name by substring against
the ordered zone lists — very far (199) first, then far (99), then near (69),
first match winning — and no match, empty, or non-string input yields 0; in
particular the three configured examples. -/
theorem calculateDeliveryFee_classification :
    calculateDeliveryFee none = 0 ∧
    calculateDeliveryFee (some "") = 0 ∧
    (∀ s : String, zoneMatches veryFarZones s = true →
      calculateDeliveryFee (some s) = 199) ∧
    (∀ s : String, zoneMatches veryFarZones s = false → zoneMatches farZones s = true →
      calculateDeliveryFee (some s) = 99) ∧
    (∀ s : String, zoneMatches veryFarZones s = false → zoneMatches farZones s = false →
      zoneMatches nearZones s = true → calculateDeliveryFee (some s) = 69) ∧
    (∀ s : String, zoneMatches veryFarZones s = false → zoneMatches farZones s = false →
      zoneMatches nearZones s = false → calculateDeliveryFee (some s) = 0) ∧
    calculateDeliveryFee (some "SM City Sta. Rosa") = 199 ∧
    calculateDeliveryFee (some "AUP Cafeteria") = 69 ∧
    calculateDeliveryFee (some "Random Unknown Shop") = 0 := by
  refine ⟨rfl, by decide, ?_, ?_, ?_, ?_, by decide, by decide, by decide⟩
  · intro s hvf
    by_cases hs : s = ""
    · subst hs
      exact absurd hvf (by decide)
    · simp [calculateDeliveryFee, hs, hvf]
  · intro s hvf hf
    by_cases hs : s = ""
    · subst hs
      exact absurd hf (by decide)
    · simp [calculateDeliveryFee, hs, hvf, hf]
  · intro s hvf hf hn
    by_cases hs : s = ""
    · subst hs
      exact absurd hn (by decide)
    · simp [calculateDeliveryFee, hs, hvf, hf, hn]
  · intro s hvf hf hn
    by_cases hs : s = ""
    · subst hs
      decide
    · simp [calculateDeliveryFee, hs, hvf, hf, hn]

/-- Witness for C7 at the concrete very-far store `"Paseo"`. -/
theorem calculateDeliveryFee_classification_witness :
    calculateDeliveryFee (some "Paseo") = 199 :=
  calculateDeliveryFee_classification.2.2.1 "Paseo" (by decide)

/-- C8: `selectOrderText` returns null when both order-text fields are empty;
the sole populated field, correctly source-tagged, when exactly one is
filled; and with both filled prefers field 2 on a pickup or delivery hint,
else field 1 on an order hint, else the strictly longer field with ties
broken toward field 2 — including the three configured examples. -/
theorem determineOrderField_selection :
    (∀ t : String, determineOrderField "" "" t = none) ∧
    (∀ (f1 t : String), f1 ≠ "" → determineOrderField f1 "" t = some f1 ∧
      orderSourceOf f1 f1 = .field1) ∧
    (∀ (f2 t : String), f2 ≠ "" → determineOrderField "" f2 t = some f2 ∧
      orderSourceOf f2 "" = .field2) ∧
    (∀ (f1 f2 t : String), f1 ≠ "" → f2 ≠ "" →
      (strIncludes (lowerStr t) "pickup" = true ∨
       strIncludes (lowerStr t) "delivery" = true) →
      determineOrderField f1 f2 t = some f2) ∧
    (∀ (f1 f2 t : String), f1 ≠ "" → f2 ≠ "" →
      strIncludes (lowerStr t) "pickup" = false →
      strIncludes (lowerStr t) "delivery" = false →
      strIncludes (lowerStr t) "order" = true →
      determineOrderField f1 f2 t = some f1) ∧
    (∀ (f1 f2 t : String), f1 ≠ "" → f2 ≠ "" →
      strIncludes (lowerStr t) "pickup" = false →
      strIncludes (lowerStr t) "delivery" = false →
      strIncludes (lowerStr t) "order" = false →
      determineOrderField f1 f2 t =
        if f2.length < f1.length then some f1 else some f2) ∧
    determineOrderField "Burger 2 @80" "" "Order" = some "Burger 2 @80" ∧
    determineOrderField "" "Pickup Fries 1" "Pickup" = some "Pickup Fries 1" ∧
    determineOrderField "Short" "A much longer detailed order description" "" =
      some "A much longer detailed order description" := by
  refine ⟨?_, ?_, ?_, ?_, ?_, ?_, by decide, by decide, by decide⟩
  · intro t
    simp [determineOrderField]
  · intro f1 t h
    exact ⟨by simp [determineOrderField, h], by simp [orderSourceOf]⟩
  · intro f2 t h
    exact ⟨by simp [determineOrderField, h], by simp [orderSourceOf, h]⟩
  · intro f1 f2 t h1 h2 hint
    have ht : t ≠ "" := by
      rintro rfl
      rcases hint with h | h
      · exact absurd h (by decide)
      · exact absurd h (by decide)
    rcases hint with h | h
    · simp [determineOrderField, h1, h2, ht, h]
    · simp [determineOrderField, h1, h2, ht, h]
  · intro f1 f2 t h1 h2 hp hd ho
    have ht : t ≠ "" := by
      rintro rfl
      exact absurd ho (by decide)
    simp [determineOrderField, h1, h2, ht, hp, hd, ho]
  · intro f1 f2 t h1 h2 hp hd ho
    simp [determineOrderField, h1, h2, hp, hd, ho]

/-- Witness for C8 at a concrete sole-populated-field call. -/
theorem determineOrderField_selection_witness :
    determineOrderField "Burger 2" "" "Pickup" = some "Burger 2" ∧
    orderSourceOf "Burger 2" "Burger 2" = .field1 :=
  determineOrderField_selection.2.1 "Burger 2" "Pickup" (by decide)

/-! ### Facts about successful parses, for the order totals -/

theorem parse_success_facts {t : Option String} {items : List Item} {fmt : OrderFormat}
    (h : parseOrderItemsEnhanced t = .success items fmt) :
    (∀ it ∈ items, 0 ≤ it.price) ∧
      (fmt = .prepaid → ∀ it ∈ items, it.price = 0) := by
  match t with
  | none => simp [parseOrderItemsEnhanced] at h
  | some s =>
    simp only [parseOrderItemsEnhanced] at h
    by_cases hs : s = ""
    · rw [if_pos hs] at h
      exact absurd h (by simp)
    · rw [if_neg hs] at h
      split at h
      · injection h with h1 h2
        constructor
        · intro it hit
          rw [← h1] at hit
          have hv := (List.mem_filter.mp hit).2
          unfold validItemized at hv
          simp only [Bool.and_eq_true, decide_eq_true_eq] at hv
          exact hv.2
        · intro hpf
          rw [← h2] at hpf
          exact absurd hpf (by decide)
      · split at h
        · injection h with h1 h2
          have hzero : ∀ it ∈ items, it.price = 0 := by
            intro it hit
            rw [← h1] at hit
            have hmem := (List.mem_filter.mp hit).1
            obtain ⟨m, _, hmap⟩ := List.mem_map.mp hmem
            rw [← hmap]
          exact ⟨fun it hit => le_of_eq (hzero it hit).symm, fun _ => hzero⟩
        · split at h
          · exact absurd h (by simp)
          · split at h
            · exact absurd h (by simp)
            · exact absurd h (by simp)

theorem itemsSubtotal_go_nonneg :
    ∀ (items : List Item) (a : ℚ), 0 ≤ a → (∀ it ∈ items, 0 ≤ it.price) →
      0 ≤ items.foldl (fun sum it => sum + (it.quantity : ℚ) * it.price) a := by
  intro items
  induction items with
  | nil => exact fun a ha _ => ha
  | cons it rest ih =>
    intro a ha hpr
    simp only [List.foldl_cons]
    exact ih _ (add_nonneg ha (mul_nonneg (Nat.cast_nonneg _)
        (hpr it (List.mem_cons_self _ _))))
      fun x hx => hpr x (List.mem_cons_of_mem _ hx)

theorem itemsSubtotal_nonneg {items : List Item}
    (h : ∀ it ∈ items, 0 ≤ it.price) : 0 ≤ itemsSubtotal items :=
  itemsSubtotal_go_nonneg items 0 le_rfl h

theorem itemsSubtotal_go_zero :
    ∀ (items : List Item) (a : ℚ), (∀ it ∈ items, it.price = 0) →
      items.foldl (fun sum it => sum + (it.quantity : ℚ) * it.price) a = a := by
  intro items
  induction items with
  | nil => exact fun a _ => rfl
  | cons it rest ih =>
    intro a hpr
    simp only [List.foldl_cons, hpr it (List.mem_cons_self _ _), mul_zero, add_zero]
    exact ih a fun x hx => hpr x (List.mem_cons_of_mem _ hx)

theorem itemsSubtotal_zero {items : List Item}
    (h : ∀ it ∈ items, it.price = 0) : itemsSubtotal items = 0 :=
  itemsSubtotal_go_zero items 0 h

/-- C9: for every successfully built Order, total = subtotal + fee exactly
(the amounts are exact rationals, so no rounding drift for representable
decimal values), for every Prepaid order subtotal = 0 by construction since
item prices are forced to 0, and subtotal is always non-negative. -/
theorem buildOrder_totals :
    ∀ (sub : Submission) (o : OrderDetails), buildOrder sub = some o →
      o.total = o.subtotal + o.deliveryFee ∧
      (o.orderType = .prepaid → o.subtotal = 0) ∧
      0 ≤ o.subtotal := by
  intro sub o h
  unfold buildOrder at h
  split at h
  · exact absurd h (by simp)
  · split at h
    · exact absurd h (by simp)
    · split at h
      · exact absurd h (by simp)
      case _ rawOrder _ items fmt hparse =>
        obtain ⟨hpr, hzero⟩ := parse_success_facts hparse
        injection h with h1
        subst h1
        refine ⟨rfl, ?_, itemsSubtotal_nonneg hpr⟩
        intro hfmt
        exact itemsSubtotal_zero (hzero hfmt)

/-- A concrete valid submission (the sample used by the testing function
`simulateFormSubmission` of the source, with a single-item order). -/
def c9sub : Submission :=
  ⟨0, "John Doe", "john.doe@example.com", "09123456789", "Dorm A", "Room 123",
   "Order", "Burger 2 @80", "", "Store Near AUP", "GCash", "REF123456",
   "I agree to all terms and conditions"⟩

/-- The order built from `c9sub`. -/
def c9order : OrderDetails :=
  ⟨0, "John Doe", "john.doe@example.com", "09123456789", "Dorm A", "Room 123",
   [⟨"Burger", 2, 80⟩], 160, 69, 229, "Store Near AUP", "GCash", "REF123456",
   .itemized, "Order", .field1⟩

/-- Witness for C9 at the concrete submission `c9sub`. -/
theorem buildOrder_totals_witness :
    buildOrder c9sub = some c9order ∧
    (c9order.total = c9order.subtotal + c9order.deliveryFee ∧
      (c9order.orderType = .prepaid → c9order.subtotal = 0) ∧
      0 ≤ c9order.subtotal) :=
  ⟨by with_unfolding_all decide,
   buildOrder_totals c9sub c9order (by with_unfolding_all decide)⟩

/-! ### The daily aggregation claims -/

theorem foldl_summaryStep_totalOrders :
    ∀ (rows : List Row) (s : Summary),
      (rows.foldl summaryStep s).totalOrders = s.totalOrders := by
  intro rows
  induction rows with
  | nil => exact fun s => rfl
  | cons r t ih =>
    intro s
    rw [List.foldl_cons, ih]
    unfold summaryStep
    cases hro : rowToOrder r <;> rfl

theorem foldl_summaryStep_orders :
    ∀ (rows : List Row) (s : Summary),
      (rows.foldl summaryStep s).orders = s.orders ++ rows.filterMap rowToOrder := by
  intro rows
  induction rows with
  | nil => intro s; simp
  | cons r t ih =>
    intro s
    rw [List.foldl_cons, ih]
    unfold summaryStep
    cases hro : rowToOrder r with
    | none => simp [List.filterMap_cons, hro]
    | some o => simp [List.filterMap_cons, hro]

/-- Row 1 of the aggregation scenario: a valid itemized order. -/
def c1row1 : Row :=
  ⟨1, "A", "", "", "", "", "Order", "Burger 2 @80", "", "Store Near AUP", "", ""⟩

/-- Row 2 of the aggregation scenario: unparsable order text. -/
def c1row2 : Row :=
  ⟨2, "B", "", "", "", "", "", "hello", "", "Somewhere", "", ""⟩

/-- Row 3 of the aggregation scenario: a valid itemized order. -/
def c1row3 : Row :=
  ⟨3, "C", "", "", "", "", "Order", "Fries 1 @45", "", "7-Eleven", "", ""⟩

/-- The 3-row scenario of C1: row 2 has unparsable text. -/
def c1rows : List Row := [c1row1, c1row2, c1row3]

/-- C1 counterexample: in the 3-row scenario with row 2 unparsable, the
summary does NOT have `totalOrders = 2` — `sendDailySummary` sets
`totalOrders` to the full row count before the per-row loop runs. -/
theorem sendDailySummary_totalOrders_counterexample :
    ¬(buildDailySummary c1rows).totalOrders = 2 := by
  have h : (buildDailySummary c1rows).totalOrders = 3 := by
    unfold buildDailySummary
    rw [foldl_summaryStep_totalOrders]
    rfl
  rw [h]
  decide

/-- C1 amended: `totalOrders` counts every input row of the day (submission
volume, 3 in the scenario), while rows whose field selection or parsing
fails are silently skipped from the orders list and store grouping without
aborting the run: the orders list is exactly the successfully interpreted
rows in arrival order, and in the scenario it holds the 2 valid rows with
their stores grouped in first-seen order. -/
theorem sendDailySummary_totalOrders_amended :
    (∀ rows : List Row, (buildDailySummary rows).totalOrders = rows.length) ∧
    (∀ rows : List Row, (buildDailySummary rows).orders = rows.filterMap rowToOrder) ∧
    (buildDailySummary c1rows).totalOrders = 3 ∧
    (buildDailySummary c1rows).orders.map (fun o => o.store) =
      ["Store Near AUP", "7-Eleven"] ∧
    (buildDailySummary c1rows).storeGroups.map Prod.fst =
      ["Store Near AUP", "7-Eleven"] := by
  refine ⟨?_, ?_, ?_, ?_, ?_⟩
  · intro rows
    unfold buildDailySummary
    rw [foldl_summaryStep_totalOrders]
  · intro rows
    unfold buildDailySummary
    rw [foldl_summaryStep_orders]
    simp
  · unfold buildDailySummary
    rw [foldl_summaryStep_totalOrders]
    rfl
  · with_unfolding_all decide
  · with_unfolding_all decide

/-! ### The dispatch view claims -/

/-- A later-timestamped order accumulated first. -/
def c2order1 : OrderData :=
  ⟨2, "A", "", "", "", "", "", [], 0, 0, "", "", .itemized, "", .field1⟩

/-- An earlier-timestamped order accumulated second. -/
def c2order2 : OrderData :=
  ⟨1, "B", "", "", "", "", "", [], 0, 0, "", "", .itemized, "", .field1⟩

/-- A summary whose accumulation order differs from chronological order. -/
def c2summary : Summary := ⟨2, 0, 0, [c2order1, c2order2], []⟩

/-- C2 counterexample: producing the dispatch text view does NOT leave the
orders list of the summary in its original accumulation order — `orders.sort`
sorts the array in place. -/
theorem dispatchView_mutates_orders_counterexample :
    ¬(generateDispatchTextRun c2summary).orders = c2summary.orders := by
  with_unfolding_all decide

/-- C2 amended: producing the chronologically sorted dispatch view sorts
`summary.orders` in place: afterwards the orders list is a stable
ascending-by-timestamp permutation of the accumulated orders (the
chronological view itself), no longer the arrival order when that differs;
the other summary fields are unchanged. -/
theorem dispatchView_sorted_amended :
    ∀ s : Summary,
      List.Sorted (fun a b : OrderData => a.timestamp ≤ b.timestamp)
        ((generateDispatchTextRun s).orders) ∧
      List.Perm ((generateDispatchTextRun s).orders) s.orders ∧
      (generateDispatchTextRun s).totalOrders = s.totalOrders ∧
      (generateDispatchTextRun s).totalRevenue = s.totalRevenue ∧
      (generateDispatchTextRun s).totalDelivery = s.totalDelivery ∧
      (generateDispatchTextRun s).storeGroups = s.storeGroups := by
  intro s
  haveI h1 : IsTotal OrderData (fun a b => a.timestamp ≤ b.timestamp) :=
    ⟨fun a b => Nat.le_total _ _⟩
  haveI h2 : IsTrans OrderData (fun a b => a.timestamp ≤ b.timestamp) :=
    ⟨fun a b c hab hbc => Nat.le_trans hab hbc⟩
  exact ⟨List.sorted_insertionSort _ _, List.perm_insertionSort _ _, rfl, rfl, rfl, rfl⟩

end CampusCart
